import Mathlib

/-!
Shallow embedding of gofmtcomment.go (package main), a tool that extracts
literal-valued constant and variable declarations from Go source files and
substitutes placeholder tokens found in comment-bearing lines.

The embedding follows the source function by function:
  extractValue            -> GofmtComment.extractValue
  extractConstants        -> GofmtComment.extractConstants (AST walk via ast.Inspect)
  processCommentLine      -> GofmtComment.processCommentLine
  replaceVariablesInComments -> GofmtComment.replaceVariablesInComments
  ProcessDirectory        -> GofmtComment.ProcessDirectory
  ProcessFile             -> GofmtComment.ProcessFile
-/

namespace GofmtComment

/-- Character class of the leading regex character class [A-Za-z_]. -/
def isIdentStart (c : Char) : Bool := c.isAlpha || c == '_'

/-- Character class of the regex character class [A-Za-z0-9_]. -/
def isIdentChar (c : Char) : Bool := isIdentStart c || c.isDigit

/-- Accumulating decimal parse; fails on any non [0-9] character.  Used to
model strconv.Atoi, which accepts only base-10 digits (no 0x, 0b, 0o
markers and no underscores). -/
def decValAux : Nat → List Char → Option Nat
  | acc, [] => some acc
  | acc, c :: cs =>
    if c.isDigit then decValAux (acc * 10 + (c.toNat - 48)) cs else none

/-- Model of strconv.Atoi: optional single leading sign, then one or more
decimal digits, with the signed 64-bit range check of ParseInt(s, 10, 0)
on a 64-bit platform.  Returns none exactly when Go returns a non-nil err. -/
def atoi? (s : String) : Option Int :=
  let p : Bool × List Char :=
    match s.data with
    | '-' :: rest => (true, rest)
    | '+' :: rest => (false, rest)
    | cs => (false, cs)
  match p.2 with
  | [] => none
  | ds =>
    match decValAux 0 ds with
    | none => none
    | some n =>
      let v : Int := if p.1 then -(n : Int) else (n : Int)
      if -(2 ^ 63) ≤ v ∧ v ≤ 2 ^ 63 - 1 then some v else none

/-- One or more decimal digits. -/
def digits1 (cs : List Char) : Bool := (!cs.isEmpty) && cs.all Char.isDigit

/-- Optional sign then one or more decimal digits. -/
def signedDigits : List Char → Bool
  | '+' :: rest => digits1 rest
  | '-' :: rest => digits1 rest
  | rest => digits1 rest

/-- Optional decimal exponent part. -/
def expPart : List Char → Bool
  | [] => true
  | 'e' :: rest => signedDigits rest
  | 'E' :: rest => signedDigits rest
  | _ => false

def isHexDigit (c : Char) : Bool :=
  c.isDigit || (('a' ≤ c) && (c ≤ 'f')) || (('A' ≤ c) && (c ≤ 'F'))

/-- Hexadecimal mantissa with mandatory binary exponent, as accepted by
strconv.ParseFloat for 0x tokens. -/
def hexFloatBody (cs : List Char) : Bool :=
  let m := cs.takeWhile isHexDigit
  let r := cs.dropWhile isHexDigit
  match r with
  | '.' :: r2 =>
    let f := r2.takeWhile isHexDigit
    let r3 := r2.dropWhile isHexDigit
    ((!m.isEmpty) || (!f.isEmpty)) &&
      (match r3 with
       | 'p' :: e => signedDigits e
       | 'P' :: e => signedDigits e
       | _ => false)
  | 'p' :: e => (!m.isEmpty) && signedDigits e
  | 'P' :: e => (!m.isEmpty) && signedDigits e
  | _ => false

/-- Decimal mantissa with optional fraction and exponent. -/
def decFloatBody (cs : List Char) : Bool :=
  let m := cs.takeWhile Char.isDigit
  let r := cs.dropWhile Char.isDigit
  match r with
  | '.' :: r2 =>
    let f := r2.takeWhile Char.isDigit
    let r3 := r2.dropWhile Char.isDigit
    ((!m.isEmpty) || (!f.isEmpty)) && expPart r3
  | _ => (!m.isEmpty) && expPart r

/-- Model of acceptance by strconv.ParseFloat(s, 64) for the token shapes
the Go scanner can produce (decimal and hexadecimal mantissas, no
underscores, which ParseFloat rejects).  Only the success/failure bit is
needed: no claim depends on the numeric value of a float binding, so the
binding stores the accepted token text rather than a parsed IEEE value. -/
def parseFloatOk (s : String) : Bool :=
  let cs : List Char :=
    match s.data with
    | '+' :: rest => rest
    | '-' :: rest => rest
    | cs => cs
  match cs with
  | '0' :: 'x' :: rest => hexFloatBody rest
  | '0' :: 'X' :: rest => hexFloatBody rest
  | _ => decFloatBody cs

/-- The value side of the constants map (map[string]interface{} holding
int, float64, bool or string).  A float binding keeps the literal token;
the Go code stores the parsed float64 and reprints it with %v, a numeric
re-formatting that no claim depends on. -/
inductive Value where
  | int (n : Int)
  | float (tok : String)
  | bool (b : Bool)
  | str (s : String)
deriving DecidableEq, Repr

/-- fmt.Sprintf("%s", s) for strings and fmt.Sprintf("%v", v) otherwise:
ints print in base 10 with a leading minus sign, bools print true/false. -/
def fmtValue : Value → String
  | .str s => s
  | .int n => toString n
  | .bool b => if b then "true" else "false"
  | .float tok => tok

/-- strings.Trim with a one-character cutset: removes all leading and all
trailing occurrences of c. -/
def trimChar (c : Char) (s : String) : String :=
  ⟨((s.data.dropWhile (fun x => x == c)).reverse.dropWhile (fun x => x == c)).reverse⟩

/-- strings.Split(s, "\n") on the character list. -/
def splitNL : List Char → List (List Char)
  | [] => [[]]
  | c :: rest =>
    if c = '\n' then [] :: splitNL rest
    else
      match splitNL rest with
      | [] => [[c]]
      | g :: gs => (c :: g) :: gs

/-- strings.Join(ls, "\n") on character lists. -/
def joinNL : List (List Char) → List Char
  | [] => []
  | [g] => g
  | g :: gs => g ++ '\n' :: joinNL gs

/-- Apply f to every element except the first (the loop from i = 1). -/
def mapTail (f : α → α) : List α → List α
  | [] => []
  | h :: t => h :: t.map f

/-- The multi-line transform of extractValue: split on newline, prefix
every line after the first with the comment opener plus a space, join. -/
def fixLines (cs : List Char) : List Char :=
  joinNL (mapTail (fun g => '/' :: '/' :: ' ' :: g) (splitNL cs))

/-- The token.Kind values extractValue inspects on a BasicLit. -/
inductive LitKind where
  | intLit
  | floatLit
  | imagLit
  | charLit
  | strLit
deriving DecidableEq, Repr

/-- Initializer expressions as extractValue distinguishes them: a BasicLit
with its raw token text, an Ident with its name, and every other
expression shape (calls, unary and binary expressions, composite
literals, selectors, ...), which all fall through to the default nil. -/
inductive Expr where
  | basicLit (kind : LitKind) (value : String)
  | ident (name : String)
  | otherExpr
deriving DecidableEq, Repr

/-- extractValue: INT via Atoi; STRING trims the delimiter quotes of the
raw token (escape sequences are NOT interpreted) and applies the
multi-line transform when the token text contains a newline, which only a
raw backquoted literal can; FLOAT via ParseFloat; Ident true/false; every
other shape yields nil. -/
def extractValue : Expr → Option Value
  | .basicLit .intLit v => (atoi? v).map Value.int
  | .basicLit .strLit v =>
    let s := if v.data.head? = some '"' then trimChar '"' v else trimChar '`' v
    let s := if s.data.contains '\n' then (⟨fixLines s.data⟩ : String) else s
    some (.str s)
  | .basicLit .floatLit v => if parseFloatOk v then some (.float v) else none
  | .basicLit .imagLit _ => none
  | .basicLit .charLit _ => none
  | .ident n => if n = "true" then some (.bool true) else if n = "false" then some (.bool false) else none
  | .otherExpr => none

/-- The constants map.  Go map semantics are modeled by an association
list whose insert replaces in place on an existing key and appends on a
fresh key; lookups agree with the Go map. -/
abbrev BindingTable := List (String × Value)

def insertBT : BindingTable → String → Value → BindingTable
  | [], k, v => [(k, v)]
  | (k0, v0) :: rest, k, v =>
    if k0 = k then (k, v) :: rest else (k0, v0) :: insertBT rest k v

def findBT? : BindingTable → String → Option Value
  | [], _ => none
  | (k0, v0) :: rest, k => if k0 = k then some v0 else findBT? rest k

/-- The value the replacement callback substitutes for a resolved name. -/
def lookupRep (bt : BindingTable) (w : String) : Option String :=
  (findBT? bt w).map fmtValue

/-- An ast.ValueSpec: names, the optional declared type (only its
presence matters to the code), and the initializer expressions. -/
structure ValueSpec where
  hasType : Bool
  names : List String
  values : List Expr
deriving DecidableEq, Repr

/-- The GenDecl token values that carry ValueSpecs. -/
inductive Tok where
  | const
  | var
deriving DecidableEq, Repr

/-- AST nodes as the ast.Inspect callback distinguishes them: a GenDecl
with its ValueSpec children, a function declaration with its body, and
every other node shape with its children (statements, blocks, short :=
assignments, type declarations, ...). -/
inductive Node where
  | genDecl (tok : Tok) (specs : List ValueSpec)
  | funcDecl (body : List Node)
  | otherNode (children : List Node)

/-- The inner loop shared by both extraction branches: for i, name with
i < len(values), bind name when extractValue is non-nil.  Iterating names
with the index bound i < len(values) is exactly iterating the zip. -/
def bindPairs (bt : BindingTable) (ps : List (String × Expr)) : BindingTable :=
  ps.foldl
    (fun b p =>
      match extractValue p.2 with
      | some v => insertBT b p.1 v
      | none => b)
    bt

/-- The case *ast.ValueSpec branch: only specs with no declared type
(inferred type) are processed. -/
def processSpecVar (bt : BindingTable) (vs : ValueSpec) : BindingTable :=
  if vs.hasType then bt else bindPairs bt (vs.names.zip vs.values)

mutual

/-- One step of ast.Inspect.  On a GenDecl the callback first handles the
node itself (the const branch runs over all its specs, ignoring declared
types), and the traversal then descends into the ValueSpec children,
where the var branch applies; the walk also descends into function bodies
and every other node. -/
def walkNode : Node → BindingTable → BindingTable
  | Node.genDecl tok specs, bt =>
    let bt1 :=
      if tok = Tok.const then
        specs.foldl (fun b vs => bindPairs b (vs.names.zip vs.values)) bt
      else bt
    specs.foldl processSpecVar bt1
  | Node.funcDecl body, bt => walkList body bt
  | Node.otherNode children, bt => walkList children bt

def walkList : List Node → BindingTable → BindingTable
  | [], bt => bt
  | n :: ns, bt => walkList ns (walkNode n bt)

end

/-- extractConstants: parse the file and run ast.Inspect over the whole
tree, accumulating into the constants map. -/
def extractConstants (bt : BindingTable) (file : List Node) : BindingTable :=
  walkList file bt

/-- One placeholder pattern: a fixed opener, one capture group matching
[A-Za-z_][A-Za-z0-9_]*, and a fixed closer. -/
structure Pat where
  pre : List Char
  suf : List Char
deriving DecidableEq, Repr

/-- Pattern 1: double braces around the name. -/
def pat1 : Pat := ⟨['{', '{'], ['}', '}']⟩

/-- Pattern 2: dollar brace around the name. -/
def pat2 : Pat := ⟨['$', '{'], ['}']⟩

/-- Pattern 3: the function-call form. -/
def pat3 : Pat := ⟨['@', 'V', 'A', 'R', '('], [')']⟩

def patterns : List Pat := [pat1, pat2, pat3]

/-- Strip an expected fixed prefix, returning the remainder. -/
def stripLead : List Char → List Char → Option (List Char)
  | [], cs => some cs
  | _ :: _, [] => none
  | p :: ps, c :: cs => if c = p then stripLead ps cs else none

/-- The capture group: one ident-start character followed by the maximal
run of ident characters.  Since the closing characters of all three
patterns are not ident characters, the greedy run is exactly what the
regex engine commits to. -/
def identRun : List Char → Option (List Char × List Char)
  | [] => none
  | c :: rest =>
    if isIdentStart c then
      some (c :: rest.takeWhile isIdentChar, rest.dropWhile isIdentChar)
    else none

/-- Attempt to match one placeholder at the head of the character list,
returning the captured name and the remainder after the match. -/
def matchAt (p : Pat) (cs : List Char) : Option (List Char × List Char) :=
  match stripLead p.pre cs with
  | none => none
  | some cs1 =>
    match identRun cs1 with
    | none => none
    | some (w, cs2) =>
      match stripLead p.suf cs2 with
      | none => none
      | some cs3 => some (w, cs3)

/-- Fueled scanner for Regexp.ReplaceAllStringFunc: walk left to right,
at each position try the pattern; on a match emit what the callback
returns (f name = some rep substitutes rep, f name = none returns the
matched text unchanged and records the warning the Go code prints) and
resume after the match; otherwise emit the character and move on.  The
fuel is always the length of the list, giving a structural recursion. -/
def replaceAllAux (p : Pat) (f : String → Option String) :
    Nat → List Char → List Char × List String
  | 0, cs => (cs, [])
  | _ + 1, [] => ([], [])
  | fuel + 1, c :: cs =>
    match matchAt p (c :: cs) with
    | some (w, rest) =>
      let r := replaceAllAux p f fuel rest
      match f (⟨w⟩ : String) with
      | some rep => (rep.data ++ r.1, r.2)
      | none => (p.pre ++ w ++ p.suf ++ r.1, (⟨w⟩ : String) :: r.2)
    | none =>
      let r := replaceAllAux p f fuel cs
      (c :: r.1, r.2)

def replaceAll (p : Pat) (f : String → Option String) (cs : List Char) :
    List Char × List String :=
  replaceAllAux p f cs.length cs

/-- The names captured by the non-overlapping left-to-right matches of
one pattern in a line (the warnings of a run in which nothing resolves). -/
def matchNames (p : Pat) (cs : List Char) : List String :=
  (replaceAll p (fun _ => none) cs).2

/-- processCommentLine: apply the three patterns in order, each to the
output of the previous one, replacing resolved names by their formatted
values; also collect the not-found warnings in print order. -/
def processCommentLine (bt : BindingTable) (line : String) : String × List String :=
  patterns.foldl
    (fun acc p =>
      let r := replaceAll p (lookupRep bt) acc.1.data
      ((⟨r.1⟩ : String), acc.2 ++ r.2))
    (line, [])

/-- strings.Contains(line, "//"). -/
def hasMarker : List Char → Bool
  | [] => false
  | c :: cs => (c == '/' && cs.head? == some '/') || hasMarker cs

/-- The per-line step of replaceVariablesInComments: only lines that
contain the comment marker anywhere are processed. -/
def rewriteLine (bt : BindingTable) (line : String) : String :=
  if hasMarker line.data then (processCommentLine bt line).1 else line

/-- The in-memory line buffer: the file content split on newline. -/
def contentLines (content : String) : List String :=
  (splitNL content.data).map (fun g => (⟨g⟩ : String))

/-- The buffer after the rewrite loop. -/
def rewriteLines (bt : BindingTable) (content : String) : List String :=
  (contentLines content).map (rewriteLine bt)

/-- replaceVariablesInComments: split, rewrite comment-bearing lines in
place, and write the joined buffer back only when some line changed
(none models the no-write path, some the written content). -/
def replaceVariablesInComments (bt : BindingTable) (content : String) : Option String :=
  if rewriteLines bt content = contentLines content then none
  else some (⟨joinNL ((rewriteLines bt content).map String.data)⟩ : String)

/-- One eligible .go file, as the two passes see it: its parsed tree for
extractConstants and its raw text for replaceVariablesInComments. -/
structure SrcFile where
  ast : List Node
  content : String

/-- The first filepath.Walk pass: extract from every file into one map. -/
def extractDirTable (files : List SrcFile) : BindingTable :=
  files.foldl (fun bt f => extractConstants bt f.ast) []

/-- ProcessDirectory: run the full extraction pass over every file, then
the rewrite pass over every file with the completed table. -/
def ProcessDirectory (files : List SrcFile) : List (Option String) :=
  files.map (fun f => replaceVariablesInComments (extractDirTable files) f.content)

/-- ProcessFile: extract from the single file, then rewrite it. -/
def ProcessFile (f : SrcFile) : Option String :=
  replaceVariablesInComments (extractConstants [] f.ast) f.content

/-- A string of the shape the capture group matches. -/
def identShape (w : String) : Bool :=
  match w.data with
  | [] => false
  | c :: cs => isIdentStart c && cs.all isIdentChar

/-- All names captured on a line, pattern by pattern, when nothing
resolves (each pass then leaves the line unchanged, so every pattern
scans the original line text). -/
def allMatchNames (line : String) : List String :=
  matchNames pat1 line.data ++ matchNames pat2 line.data ++ matchNames pat3 line.data

/-- Does some placeholder on the line name a bound identifier? -/
def hasResolvable (bt : BindingTable) (line : String) : Bool :=
  (allMatchNames line).any (fun w => (findBT? bt w).isSome)

/-- The initializer shapes the spec calls non-literal: every expression
that is not a BasicLit and not the boolean identifiers. -/
def isNonLiteral : Expr → Bool
  | .otherExpr => true
  | .ident n => !(n = "true" || n = "false")
  | .basicLit _ _ => false

/-! ### Scanner lemmas -/

lemma strEta (s : String) : (⟨s.data⟩ : String) = s := rfl

lemma stripLead_append (ps r : List Char) : stripLead ps (ps ++ r) = some r := by
  induction ps with
  | nil => rfl
  | cons p ps ih => simp [stripLead, ih]

lemma stripLead_decomp : ∀ {ps cs r : List Char}, stripLead ps cs = some r → cs = ps ++ r := by
  intro ps
  induction ps with
  | nil =>
    intro cs r h
    simp [stripLead] at h
    simp [h]
  | cons p ps ih =>
    intro cs r h
    cases cs with
    | nil => simp [stripLead] at h
    | cons c cs =>
      by_cases hc : c = p
      · subst hc
        simp [stripLead] at h
        simp [ih h]
      · simp [stripLead, hc] at h

lemma takeWhile_all_append {q : Char → Bool} {l l2 : List Char}
    (h1 : ∀ c ∈ l, q c = true) (h2 : ∀ c, l2.head? = some c → q c = false) :
    (l ++ l2).takeWhile q = l ∧ (l ++ l2).dropWhile q = l2 := by
  induction l with
  | nil =>
    cases l2 with
    | nil => simp
    | cons c cs =>
      have := h2 c rfl
      simp [List.takeWhile, List.dropWhile, this]
  | cons c l ih =>
    have hc := h1 c (by simp)
    have := ih (fun x hx => h1 x (by simp [hx]))
    simp [List.takeWhile, List.dropWhile, hc, this.1, this.2]

lemma identRun_append (c : Char) (wt r : List Char)
    (hc : isIdentStart c = true) (hwt : ∀ x ∈ wt, isIdentChar x = true)
    (hr : ∀ x, r.head? = some x → isIdentChar x = false) :
    identRun ((c :: wt) ++ r) = some (c :: wt, r) := by
  have h := takeWhile_all_append (q := isIdentChar) hwt hr
  simp [identRun, hc, h.1, h.2]

lemma identRun_decomp : ∀ {cs w r : List Char}, identRun cs = some (w, r) → cs = w ++ r ∧ w ≠ [] := by
  intro cs w r h
  cases cs with
  | nil => simp [identRun] at h
  | cons c rest =>
    by_cases hc : isIdentStart c = true
    · simp [identRun, hc] at h
      obtain ⟨hw, hr⟩ := h
      subst hw
      subst hr
      constructor
      · simp [List.takeWhile_append_dropWhile]
      · simp
    · simp [identRun, hc] at h

lemma matchAt_exact (p : Pat) (c : Char) (wt rest : List Char)
    (hc : isIdentStart c = true) (hwt : ∀ x ∈ wt, isIdentChar x = true)
    (s0 : Char) (ss : List Char) (hs : p.suf = s0 :: ss) (hs0 : isIdentChar s0 = false) :
    matchAt p (p.pre ++ (c :: wt) ++ p.suf ++ rest) = some (c :: wt, rest) := by
  have e1 : p.pre ++ (c :: wt) ++ p.suf ++ rest = p.pre ++ ((c :: wt) ++ (p.suf ++ rest)) := by
    simp
  rw [e1]
  have hr : ∀ x, (p.suf ++ rest).head? = some x → isIdentChar x = false := by
    intro x hx
    rw [hs] at hx
    simp at hx
    subst hx
    exact hs0
  simp only [matchAt, stripLead_append, identRun_append c wt (p.suf ++ rest) hc hwt hr]

lemma matchAt_decomp : ∀ {p : Pat} {cs w rest : List Char},
    matchAt p cs = some (w, rest) → cs = p.pre ++ w ++ p.suf ++ rest ∧ w ≠ [] := by
  intro p cs w rest h
  unfold matchAt at h
  cases h1 : stripLead p.pre cs with
  | none => simp [h1] at h
  | some cs1 =>
    simp only [h1] at h
    cases h2 : identRun cs1 with
    | none => simp [h2] at h
    | some pr =>
      obtain ⟨w1, cs2⟩ := pr
      simp only [h2] at h
      cases h3 : stripLead p.suf cs2 with
      | none => simp [h3] at h
      | some cs3 =>
        simp only [h3] at h
        simp at h
        obtain ⟨hw, hr⟩ := h
        subst hw
        subst hr
        obtain ⟨e2, hne⟩ := identRun_decomp h2
        have e3 := stripLead_decomp h3
        have e1 := stripLead_decomp h1
        subst e3
        subst e2
        subst e1
        constructor
        · simp
        · exact hne

lemma matchAt_rest_lt {p : Pat} {cs w rest : List Char}
    (h : matchAt p cs = some (w, rest)) : rest.length < cs.length := by
  obtain ⟨e, hw⟩ := matchAt_decomp h
  have hwl : 0 < w.length := List.length_pos.mpr hw
  rw [e]
  simp [List.length_append]
  omega

lemma replaceAllAux_fuel (p : Pat) (f : String → Option String) :
    ∀ n1 : Nat, ∀ cs : List Char, ∀ n2 : Nat, cs.length ≤ n1 → cs.length ≤ n2 →
      replaceAllAux p f n1 cs = replaceAllAux p f n2 cs := by
  intro n1
  induction n1 with
  | zero =>
    intro cs n2 h1 h2
    have : cs = [] := List.eq_nil_of_length_eq_zero (Nat.le_zero.mp h1)
    subst this
    cases n2 <;> rfl
  | succ n ih =>
    intro cs n2 h1 h2
    cases cs with
    | nil => cases n2 <;> rfl
    | cons c cs0 =>
      cases n2 with
      | zero => simp at h2
      | succ m =>
        show replaceAllAux p f (n + 1) (c :: cs0) = replaceAllAux p f (m + 1) (c :: cs0)
        unfold replaceAllAux
        cases h : matchAt p (c :: cs0) with
        | none =>
          have hl1 : cs0.length ≤ n := by simpa using h1
          have hl2 : cs0.length ≤ m := by simpa using h2
          simp only [h]
          rw [ih cs0 m hl1 hl2]
        | some pr =>
          obtain ⟨w, rest⟩ := pr
          have hlt := matchAt_rest_lt h
          simp only [h]
          have hl1 : rest.length ≤ n := by simp at hlt h1 ⊢; omega
          have hl2 : rest.length ≤ m := by simp at hlt h2 ⊢; omega
          rw [ih rest m hl1 hl2]

lemma replaceAll_nil (p : Pat) (f : String → Option String) : replaceAll p f [] = ([], []) := rfl

lemma replaceAll_cons_match_some {p : Pat} {f : String → Option String} {c : Char}
    {cs w rest : List Char} {rep : String}
    (h : matchAt p (c :: cs) = some (w, rest)) (hf : f (⟨w⟩ : String) = some rep) :
    replaceAll p f (c :: cs) = (rep.data ++ (replaceAll p f rest).1, (replaceAll p f rest).2) := by
  have hlt := matchAt_rest_lt h
  have key : replaceAllAux p f (cs.length + 1) (c :: cs) =
      (rep.data ++ (replaceAllAux p f rest.length rest).1,
        (replaceAllAux p f rest.length rest).2) := by
    conv_lhs => rw [replaceAllAux]
    simp only [h, hf]
    rw [replaceAllAux_fuel p f cs.length rest rest.length (by simp at hlt ⊢; omega) (le_refl _)]
  rw [replaceAll, replaceAll]
  simpa using key

lemma replaceAll_cons_match_none {p : Pat} {f : String → Option String} {c : Char}
    {cs w rest : List Char}
    (h : matchAt p (c :: cs) = some (w, rest)) (hf : f (⟨w⟩ : String) = none) :
    replaceAll p f (c :: cs) =
      (p.pre ++ w ++ p.suf ++ (replaceAll p f rest).1,
        (⟨w⟩ : String) :: (replaceAll p f rest).2) := by
  have hlt := matchAt_rest_lt h
  have key : replaceAllAux p f (cs.length + 1) (c :: cs) =
      (p.pre ++ w ++ p.suf ++ (replaceAllAux p f rest.length rest).1,
        (⟨w⟩ : String) :: (replaceAllAux p f rest.length rest).2) := by
    conv_lhs => rw [replaceAllAux]
    simp only [h, hf]
    rw [replaceAllAux_fuel p f cs.length rest rest.length (by simp at hlt ⊢; omega) (le_refl _)]
  rw [replaceAll, replaceAll]
  simpa using key

lemma replaceAll_cons_no_match {p : Pat} {f : String → Option String} {c : Char} {cs : List Char}
    (h : matchAt p (c :: cs) = none) :
    replaceAll p f (c :: cs) = (c :: (replaceAll p f cs).1, (replaceAll p f cs).2) := by
  have key : replaceAllAux p f (cs.length + 1) (c :: cs) =
      (c :: (replaceAllAux p f cs.length cs).1, (replaceAllAux p f cs.length cs).2) := by
    conv_lhs => rw [replaceAllAux]
    simp only [h]
  rw [replaceAll, replaceAll]
  simpa using key

lemma replaceAll_skip {p : Pat} {p0 : Char} (f : String → Option String)
    (hp : p.pre.head? = some p0) :
    ∀ seg cs : List Char, (∀ c ∈ seg, c ≠ p0) →
      replaceAll p f (seg ++ cs) = (seg ++ (replaceAll p f cs).1, (replaceAll p f cs).2) := by
  intro seg
  induction seg with
  | nil => intro cs _; simp
  | cons c seg ih =>
    intro cs hseg
    have hc : c ≠ p0 := hseg c (by simp)
    have hm : matchAt p (c :: (seg ++ cs)) = none := by
      cases hpre : p.pre with
      | nil => rw [hpre] at hp; simp at hp
      | cons q qs =>
        rw [hpre] at hp
        simp at hp
        subst hp
        unfold matchAt
        rw [hpre]
        simp [stripLead, hc]
    simp only [List.cons_append]
    rw [replaceAll_cons_no_match hm, ih cs (fun x hx => hseg x (by simp [hx]))]

lemma replaceAll_all_skip {p : Pat} {p0 : Char} (f : String → Option String)
    (hp : p.pre.head? = some p0) (cs : List Char) (h : ∀ c ∈ cs, c ≠ p0) :
    replaceAll p f cs = (cs, []) := by
  have := replaceAll_skip f hp cs [] h
  simpa [replaceAll_nil] using this

lemma replaceAll_hit_none {p : Pat} {f : String → Option String} (c : Char) (wt rest : List Char)
    (hc : isIdentStart c = true) (hwt : ∀ x ∈ wt, isIdentChar x = true)
    (s0 : Char) (ss : List Char) (hs : p.suf = s0 :: ss) (hs0 : isIdentChar s0 = false)
    (q0 : Char) (qs : List Char) (hq : p.pre = q0 :: qs)
    (hf : f (⟨c :: wt⟩ : String) = none) :
    replaceAll p f (p.pre ++ (c :: wt) ++ p.suf ++ rest) =
      (p.pre ++ (c :: wt) ++ p.suf ++ (replaceAll p f rest).1,
        (⟨c :: wt⟩ : String) :: (replaceAll p f rest).2) := by
  have hm := matchAt_exact p c wt rest hc hwt s0 ss hs hs0
  have e : p.pre ++ (c :: wt) ++ p.suf ++ rest = q0 :: (qs ++ ((c :: wt) ++ (p.suf ++ rest))) := by
    rw [hq]
    simp
  rw [e] at hm ⊢
  rw [replaceAll_cons_match_none hm hf]

lemma replaceAll_hit_some {p : Pat} {f : String → Option String} (c : Char) (wt rest : List Char)
    {rep : String}
    (hc : isIdentStart c = true) (hwt : ∀ x ∈ wt, isIdentChar x = true)
    (s0 : Char) (ss : List Char) (hs : p.suf = s0 :: ss) (hs0 : isIdentChar s0 = false)
    (q0 : Char) (qs : List Char) (hq : p.pre = q0 :: qs)
    (hf : f (⟨c :: wt⟩ : String) = some rep) :
    replaceAll p f (p.pre ++ (c :: wt) ++ p.suf ++ rest) =
      (rep.data ++ (replaceAll p f rest).1, (replaceAll p f rest).2) := by
  have hm := matchAt_exact p c wt rest hc hwt s0 ss hs hs0
  have e : p.pre ++ (c :: wt) ++ p.suf ++ rest = q0 :: (qs ++ ((c :: wt) ++ (p.suf ++ rest))) := by
    rw [hq]
    simp
  rw [e] at hm ⊢
  rw [replaceAll_cons_match_some hm hf]

/-- When every captured name fails to resolve, the scanner reproduces its
input unchanged and its warnings are exactly the captured names. -/
lemma replaceAll_unresolved (p : Pat) (f : String → Option String) :
    ∀ n : Nat, ∀ cs : List Char, cs.length ≤ n →
      (∀ w ∈ matchNames p cs, f w = none) →
      replaceAll p f cs = (cs, matchNames p cs) := by
  intro n
  induction n with
  | zero =>
    intro cs hl _
    have : cs = [] := List.eq_nil_of_length_eq_zero (Nat.le_zero.mp hl)
    subst this
    rfl
  | succ n ih =>
    intro cs hl hres
    cases cs with
    | nil => rfl
    | cons c cs0 =>
      cases hm : matchAt p (c :: cs0) with
      | none =>
        have hmn : matchNames p (c :: cs0) = matchNames p cs0 := by
          unfold matchNames
          rw [replaceAll_cons_no_match hm]
        have hr := ih cs0 (by simpa using hl) (by rw [← hmn]; exact hres)
        rw [replaceAll_cons_no_match hm, hr, hmn]
      | some pr =>
        obtain ⟨w, rest⟩ := pr
        have hmn : matchNames p (c :: cs0) = (⟨w⟩ : String) :: matchNames p rest := by
          unfold matchNames
          rw [replaceAll_cons_match_none hm rfl]
        have hfw : f (⟨w⟩ : String) = none := by
          apply hres
          rw [hmn]
          simp
        have hlt := matchAt_rest_lt hm
        have hr := ih rest (by simp at hlt hl ⊢; omega)
          (fun x hx => hres x (by rw [hmn]; simp [hx]))
        rw [replaceAll_cons_match_none hm hfw, hr, hmn]
        obtain ⟨e, _⟩ := matchAt_decomp hm
        rw [← e]

/-- A line on which every captured name (of every pattern) is unbound is
processed to itself, and the warnings are all the captured names in
pattern order. -/
lemma processCommentLine_unresolved (bt : BindingTable) (line : String)
    (h : ∀ w ∈ allMatchNames line, findBT? bt w = none) :
    processCommentLine bt line = (line, allMatchNames line) := by
  have h1 : ∀ w ∈ matchNames pat1 line.data, lookupRep bt w = none := by
    intro w hw
    have := h w (by simp [allMatchNames, hw])
    simp [lookupRep, this]
  have h2 : ∀ w ∈ matchNames pat2 line.data, lookupRep bt w = none := by
    intro w hw
    have := h w (by simp [allMatchNames, hw])
    simp [lookupRep, this]
  have h3 : ∀ w ∈ matchNames pat3 line.data, lookupRep bt w = none := by
    intro w hw
    have := h w (by simp [allMatchNames, hw])
    simp [lookupRep, this]
  have e1 := replaceAll_unresolved pat1 (lookupRep bt) line.data.length line.data (le_refl _) h1
  have e2 := replaceAll_unresolved pat2 (lookupRep bt) line.data.length line.data (le_refl _) h2
  have e3 := replaceAll_unresolved pat3 (lookupRep bt) line.data.length line.data (le_refl _) h3
  simp only [processCommentLine, patterns, List.foldl_cons, List.foldl_nil]
  rw [e1]
  simp only [strEta]
  rw [e2]
  simp only [strEta]
  rw [e3]
  simp [allMatchNames, strEta]

/-- A line with no resolvable placeholder is left unchanged by the
per-line rewrite step. -/
lemma rewriteLine_id (bt : BindingTable) (line : String)
    (h : hasMarker line.data = true → hasResolvable bt line = false) :
    rewriteLine bt line = line := by
  unfold rewriteLine
  cases hm : hasMarker line.data with
  | false => simp
  | true =>
    have hres := h hm
    unfold hasResolvable at hres
    have hnone : ∀ w ∈ allMatchNames line, findBT? bt w = none := by
      intro w hw
      have hns := List.any_eq_false.mp hres w hw
      cases hfind : findBT? bt w with
      | none => rfl
      | some v => rw [hfind] at hns; simp at hns
    simp [processCommentLine_unresolved bt line hnone]

/-- A file none of whose comment-bearing lines has a resolvable
placeholder is left unchanged, and no write happens. -/
lemma noResolvable_none (bt : BindingTable) (content : String)
    (h : ∀ line ∈ contentLines content,
      hasMarker line.data = true → hasResolvable bt line = false) :
    replaceVariablesInComments bt content = none := by
  have he : rewriteLines bt content = contentLines content := by
    unfold rewriteLines
    have : ∀ line ∈ contentLines content, rewriteLine bt line = line := by
      intro line hline
      exact rewriteLine_id bt line (h line hline)
    calc (contentLines content).map (rewriteLine bt)
        = (contentLines content).map id := List.map_congr_left (by simpa using this)
      _ = contentLines content := List.map_id _
  unfold replaceVariablesInComments
  simp [he]

/-! ### Binding table lemmas -/

lemma findBT?_insert_self (bt : BindingTable) (k : String) (v : Value) :
    findBT? (insertBT bt k v) k = some v := by
  induction bt with
  | nil => simp [insertBT, findBT?]
  | cons p rest ih =>
    obtain ⟨k0, v0⟩ := p
    by_cases hk : k0 = k
    · subst hk
      simp [insertBT, findBT?]
    · simp [insertBT, findBT?, hk, ih]

lemma findBT?_insert_ne (bt : BindingTable) (k : String) (v : Value) (k2 : String)
    (h : k2 ≠ k) : findBT? (insertBT bt k v) k2 = findBT? bt k2 := by
  have hne : ¬ (k = k2) := fun hh => h hh.symm
  induction bt with
  | nil => simp [insertBT, findBT?, hne]
  | cons p rest ih =>
    obtain ⟨k0, v0⟩ := p
    by_cases hk : k0 = k
    · have hne0 : ¬ (k0 = k2) := by
        rw [hk]
        exact hne
      simp [insertBT, findBT?, hk, hne, hne0]
    · by_cases hk2 : k0 = k2
      · simp [insertBT, findBT?, hk, hk2, h]
      · simp [insertBT, findBT?, hk, hk2, ih]

lemma insertBT_fresh (bt : BindingTable) (k : String) (v : Value)
    (h : findBT? bt k = none) : insertBT bt k v = bt ++ [(k, v)] := by
  induction bt with
  | nil => simp [insertBT]
  | cons p rest ih =>
    obtain ⟨k0, v0⟩ := p
    by_cases hk : k0 = k
    · simp [findBT?, hk] at h
    · simp [findBT?, hk] at h
      simp [insertBT, hk, ih h]

lemma insertBT_same (bt : BindingTable) (k : String) (v : Value)
    (h : findBT? bt k = some v) : insertBT bt k v = bt := by
  induction bt with
  | nil => simp [findBT?] at h
  | cons p rest ih =>
    obtain ⟨k0, v0⟩ := p
    by_cases hk : k0 = k
    · simp [findBT?, hk] at h
      simp [insertBT, hk, h]
    · simp [findBT?, hk] at h
      simp [insertBT, hk, ih h]

lemma bindPairs_cons_some {p : String × Expr} {ps : List (String × Expr)}
    {bt : BindingTable} {v : Value} (hv : extractValue p.2 = some v) :
    bindPairs bt (p :: ps) = bindPairs (insertBT bt p.1 v) ps := by
  unfold bindPairs
  rw [List.foldl_cons]
  simp only [hv]

lemma bindPairs_cons_none {p : String × Expr} {ps : List (String × Expr)}
    {bt : BindingTable} (hv : extractValue p.2 = none) :
    bindPairs bt (p :: ps) = bindPairs bt ps := by
  unfold bindPairs
  rw [List.foldl_cons]
  simp only [hv]

lemma findBT?_bindPairs_not_mem (ps : List (String × Expr)) :
    ∀ bt : BindingTable, ∀ k : String, k ∉ ps.map Prod.fst →
      findBT? (bindPairs bt ps) k = findBT? bt k := by
  induction ps with
  | nil => intro bt k _; rfl
  | cons p ps ih =>
    intro bt k hk
    have hk1 : k ≠ p.1 := by
      intro hh
      exact hk (by simp [hh])
    have hk2 : k ∉ ps.map Prod.fst := fun hh => hk (by simp [hh])
    cases hv : extractValue p.2 with
    | none =>
      rw [bindPairs_cons_none hv]
      exact ih bt k hk2
    | some v =>
      rw [bindPairs_cons_some hv, ih (insertBT bt p.1 v) k hk2]
      exact findBT?_insert_ne bt p.1 v k hk1

/-- If every pair is already bound to its (possibly absent) extracted
value, re-running the loop leaves the table unchanged. -/
lemma bindPairs_stable (ps : List (String × Expr)) :
    ∀ bt : BindingTable,
      (∀ p ∈ ps, ∀ v, extractValue p.2 = some v → findBT? bt p.1 = some v) →
      bindPairs bt ps = bt := by
  induction ps with
  | nil => intro bt _; rfl
  | cons p ps ih =>
    intro bt h
    cases hv : extractValue p.2 with
    | none =>
      rw [bindPairs_cons_none hv]
      exact ih bt (fun q hq v hv2 => h q (by simp [hq]) v hv2)
    | some v =>
      rw [bindPairs_cons_some hv, insertBT_same bt p.1 v (h p (by simp) v hv)]
      exact ih bt (fun q hq v2 hv2 => h q (by simp [hq]) v2 hv2)

/-- The main loop characterization used for the constant-group claim:
starting from a table in which no listed name is bound yet, with distinct
names and every initializer extractable, the loop appends exactly one
binding per pair, in order, and each name looks up to its extracted
value. -/
lemma bindPairs_fresh (ps : List (String × Expr)) :
    ∀ bt : BindingTable,
      (ps.map Prod.fst).Nodup →
      (∀ p ∈ ps, findBT? bt p.1 = none) →
      (∀ p ∈ ps, (extractValue p.2).isSome = true) →
      (bindPairs bt ps).map Prod.fst = bt.map Prod.fst ++ ps.map Prod.fst ∧
        (∀ p ∈ ps, findBT? (bindPairs bt ps) p.1 = extractValue p.2) := by
  induction ps with
  | nil => intro bt _ _ _; simp [bindPairs]
  | cons p ps ih =>
    intro bt hnd hfresh hlit
    obtain ⟨v, hv⟩ := Option.isSome_iff_exists.mp (hlit p (by simp))
    have hstep : bindPairs bt (p :: ps) = bindPairs (insertBT bt p.1 v) ps :=
      bindPairs_cons_some hv
    rw [List.map_cons, List.nodup_cons] at hnd
    have hp1 : p.1 ∉ ps.map Prod.fst := hnd.1
    have hnd1 : (ps.map Prod.fst).Nodup := hnd.2
    have hfresh1 : ∀ q ∈ ps, findBT? (insertBT bt p.1 v) q.1 = none := by
      intro q hq
      have hne : q.1 ≠ p.1 := by
        intro he
        exact hp1 (he ▸ List.mem_map_of_mem Prod.fst hq)
      rw [findBT?_insert_ne bt p.1 v q.1 hne]
      exact hfresh q (by simp [hq])
    have hlit1 : ∀ q ∈ ps, (extractValue q.2).isSome = true :=
      fun q hq => hlit q (by simp [hq])
    obtain ⟨ihk, ihf⟩ := ih (insertBT bt p.1 v) hnd1 hfresh1 hlit1
    have hins : insertBT bt p.1 v = bt ++ [(p.1, v)] :=
      insertBT_fresh bt p.1 v (hfresh p (by simp))
    constructor
    · rw [hstep, ihk, hins]
      simp
    · intro q hq
      rcases List.mem_cons.mp hq with hq1 | hq2
      · subst hq1
        rw [hstep, findBT?_bindPairs_not_mem ps (insertBT bt q.1 v) q.1 hp1,
          findBT?_insert_self, hv]
      · rw [hstep]
        exact ihf q hq2

/-! ### Split and join lemmas for the multi-line string transform -/

lemma splitNL_ne_nil (cs : List Char) : splitNL cs ≠ [] := by
  induction cs with
  | nil => simp [splitNL]
  | cons c rest ih =>
    by_cases hc : c = '\n'
    · simp [splitNL, hc]
    · simp only [splitNL, if_neg hc]
      cases h : splitNL rest with
      | nil => simp
      | cons g gs => simp

lemma mem_splitNL_no_nl (cs : List Char) : ∀ g ∈ splitNL cs, '\n' ∉ g := by
  induction cs with
  | nil =>
    intro g hg
    simp [splitNL] at hg
    simp [hg]
  | cons c rest ih =>
    intro g hg
    by_cases hc : c = '\n'
    · simp only [splitNL, if_pos hc] at hg
      rcases List.mem_cons.mp hg with h1 | h2
      · simp [h1]
      · exact ih g h2
    · simp only [splitNL, if_neg hc] at hg
      cases h : splitNL rest with
      | nil => exact absurd h (splitNL_ne_nil rest)
      | cons g0 gs =>
        rw [h] at hg
        rcases List.mem_cons.mp hg with h1 | h2
        · subst h1
          intro hmem
          rcases List.mem_cons.mp hmem with h3 | h4
          · exact hc h3.symm
          · exact ih g0 (by simp [h]) h4
        · exact ih g (by simp [h, h2])

lemma splitNL_no_nl_self (g : List Char) (h : '\n' ∉ g) : splitNL g = [g] := by
  induction g with
  | nil => rfl
  | cons c rest ih =>
    have hc : c ≠ '\n' := by
      intro hh
      exact h (by simp [hh])
    have hr : '\n' ∉ rest := fun hh => h (by simp [hh])
    simp only [splitNL, if_neg hc, ih hr]

lemma splitNL_append_nl (g t : List Char) (h : '\n' ∉ g) :
    splitNL (g ++ '\n' :: t) = g :: splitNL t := by
  induction g with
  | nil => simp [splitNL]
  | cons c rest ih =>
    have hc : c ≠ '\n' := by
      intro hh
      exact h (by simp [hh])
    have hr : '\n' ∉ rest := fun hh => h (by simp [hh])
    simp only [List.cons_append, splitNL, if_neg hc, List.append_eq]
    rw [ih hr]

lemma splitNL_joinNL (ls : List (List Char)) (h1 : ls ≠ [])
    (h2 : ∀ g ∈ ls, '\n' ∉ g) : splitNL (joinNL ls) = ls := by
  induction ls with
  | nil => exact absurd rfl h1
  | cons g gs ih =>
    cases gs with
    | nil =>
      show splitNL (joinNL [g]) = [g]
      unfold joinNL
      exact splitNL_no_nl_self g (h2 g (by simp))
    | cons g2 gs2 =>
      show splitNL (joinNL (g :: g2 :: gs2)) = g :: g2 :: gs2
      unfold joinNL
      rw [splitNL_append_nl g (joinNL (g2 :: gs2)) (h2 g (by simp))]
      rw [ih (by simp) (fun x hx => h2 x (by simp [hx]))]

lemma mem_mapTail {f : α → α} {l : List α} {g : α} (h : g ∈ mapTail f l) :
    g ∈ l ∨ ∃ g2 ∈ l, g = f g2 := by
  cases l with
  | nil => simp [mapTail] at h
  | cons h0 t =>
    simp only [mapTail] at h
    rcases List.mem_cons.mp h with h1 | h2
    · left
      simp [h1]
    · right
      obtain ⟨g2, hg2, he⟩ := List.mem_map.mp h2
      exact ⟨g2, by simp [hg2], he.symm⟩

/-- The effect of the extraction-time multi-line transform on the line
structure: the first line is kept, every later line gains the comment
opener and a space. -/
lemma splitNL_fixLines (cs : List Char) :
    splitNL (fixLines cs) = mapTail (fun g => '/' :: '/' :: ' ' :: g) (splitNL cs) := by
  unfold fixLines
  apply splitNL_joinNL
  · cases h : splitNL cs with
    | nil => exact absurd h (splitNL_ne_nil cs)
    | cons g gs => simp [mapTail]
  · intro g hg
    rcases mem_mapTail hg with h1 | ⟨g2, hg2, he⟩
    · exact mem_splitNL_no_nl cs g h1
    · subst he
      have := mem_splitNL_no_nl cs g2 hg2
      simp [this]

/-! ### Character class facts -/

lemma identChar_ne_dollar {c : Char} (h : isIdentChar c = true) : c ≠ '$' := by
  intro he
  subst he
  exact absurd h (by decide)

lemma identChar_ne_at {c : Char} (h : isIdentChar c = true) : c ≠ '@' := by
  intro he
  subst he
  exact absurd h (by decide)

lemma identChar_ne_brace {c : Char} (h : isIdentChar c = true) : c ≠ '\x7b' := by
  intro he
  subst he
  exact absurd h (by decide)

/-! ### Helper lemmas for the extraction claims -/

lemma zip_map_fst (l1 : List String) (l2 : List Expr) :
    (l1.zip l2).map Prod.fst = l1.take (min l1.length l2.length) := by
  induction l1 generalizing l2 with
  | nil => simp
  | cons a l1 ih =>
    cases l2 with
    | nil => simp
    | cons b l2 =>
      simp only [List.zip_cons_cons, List.map_cons, List.length_cons, Nat.succ_min_succ,
        List.take_succ_cons, ih]

lemma mem_zip_snd : ∀ {l1 : List String} {l2 : List Expr} {q : String × Expr},
    q ∈ l1.zip l2 → q.2 ∈ l2 := by
  intro l1
  induction l1 with
  | nil => intro l2 q h; simp at h
  | cons a l1 ih =>
    intro l2 q h
    cases l2 with
    | nil => simp at h
    | cons b l2 =>
      rcases List.mem_cons.mp h with h1 | h2
      · simp [h1]
      · exact List.mem_cons_of_mem b (ih h2)

/-- Unfolding of the walk on a file holding a single constant group with
one spec: the GenDecl callback case runs the loop over the spec, then the
traversal visits the ValueSpec child, which reruns the loop when the spec
has no declared type. -/
lemma extractConstants_one_const (ht : Bool) (names : List String) (values : List Expr)
    (bt : BindingTable) :
    extractConstants bt [Node.genDecl Tok.const [⟨ht, names, values⟩]] =
      (if ht then bindPairs bt (names.zip values)
       else bindPairs (bindPairs bt (names.zip values)) (names.zip values)) := by
  cases ht <;> simp [extractConstants, walkList, walkNode, processSpecVar]

lemma isNonLiteral_extractValue {e : Expr} (h : isNonLiteral e = true) :
    extractValue e = none := by
  cases e with
  | otherExpr => rfl
  | basicLit k v => simp [isNonLiteral] at h
  | ident n =>
    simp [isNonLiteral] at h
    simp [extractValue, h.1, h.2]

/-! ### The claims -/

/-- Claim C1: for a constant-declaration group spec with N names and M
literal initializers, extraction produces a binding exactly for each name
at index i < M, pairing positionally: the bound keys are exactly the
first min(N, M) names, each looking up to the extracted value of the
initializer at its own index, and the M < N case skips the excess names
without any error path. -/
theorem const_group_positional_bindings (ht : Bool) (names : List String) (values : List Expr)
    (hnd : names.Nodup)
    (hlit : ∀ p ∈ names.zip values, (extractValue p.2).isSome = true) :
    (extractConstants [] [Node.genDecl Tok.const [⟨ht, names, values⟩]]).map Prod.fst
        = names.take (min names.length values.length) ∧
      ∀ p ∈ names.zip values,
        findBT? (extractConstants [] [Node.genDecl Tok.const [⟨ht, names, values⟩]]) p.1
          = extractValue p.2 := by
  have hndz : ((names.zip values).map Prod.fst).Nodup := by
    rw [zip_map_fst]
    exact (List.take_sublist _ _).nodup hnd
  have hfresh : ∀ p ∈ names.zip values, findBT? [] p.1 = none := by
    intro p _
    rfl
  obtain ⟨hk, hf⟩ := bindPairs_fresh (names.zip values) [] hndz hfresh hlit
  have hstable : bindPairs (bindPairs [] (names.zip values)) (names.zip values)
      = bindPairs [] (names.zip values) := by
    apply bindPairs_stable
    intro p hp v hv
    rw [hf p hp, hv]
  rw [extractConstants_one_const]
  cases ht with
  | true =>
    rw [if_pos rfl]
    refine ⟨?_, hf⟩
    rw [hk]
    simp [zip_map_fst]
  | false =>
    rw [if_neg (by simp)]
    rw [hstable]
    refine ⟨?_, hf⟩
    rw [hk]
    simp [zip_map_fst]

theorem const_group_positional_bindings_witness :
    ((extractConstants [] [Node.genDecl Tok.const
        [⟨false, ["A", "B", "C"],
          [Expr.basicLit LitKind.intLit "1", Expr.basicLit LitKind.intLit "2"]⟩]]).map Prod.fst
      = (["A", "B", "C"] : List String).take
          (min (["A", "B", "C"] : List String).length
            ([Expr.basicLit LitKind.intLit "1", Expr.basicLit LitKind.intLit "2"] : List Expr).length) ∧
      ∀ p ∈ (["A", "B", "C"] : List String).zip
          [Expr.basicLit LitKind.intLit "1", Expr.basicLit LitKind.intLit "2"],
        findBT? (extractConstants [] [Node.genDecl Tok.const
          [⟨false, ["A", "B", "C"],
            [Expr.basicLit LitKind.intLit "1", Expr.basicLit LitKind.intLit "2"]⟩]]) p.1
          = extractValue p.2) :=
  const_group_positional_bindings false ["A", "B", "C"]
    [Expr.basicLit LitKind.intLit "1", Expr.basicLit LitKind.intLit "2"]
    (by decide) (by decide)

/-- Claim C2, counterexample: a double-quoted interpreted string literal
written "line1\\nline2" keeps its escape sequence as the two characters
backslash and n (extractValue never unquotes), so substituting X yields
one line containing a literal backslash-n, not line1, newline, // line2
as the claim states. -/
theorem interpreted_escape_not_newline :
    processCommentLine
        (extractConstants [] [Node.genDecl Tok.const
          [⟨false, ["X"], [Expr.basicLit LitKind.strLit "\"line1\\nline2\""]⟩]])
        "// {{X}}"
      = ("// line1\\nline2", []) ∧
    ("// line1\\nline2" : String) ≠ "// line1\n// line2" :=
  ⟨by decide, by decide⟩

/-- Claim C2, amended: the prefixing behavior holds for string tokens that
contain an actual line break, which only raw backquoted literals can
carry; a raw literal spanning line1 and line2 bound to X substitutes in a
comment as line1, a newline, then // line2, and in general the transform
applied at extraction time keeps the first line and prefixes every later
line with the comment opener and a space. -/
theorem multiline_string_comment_prefixing :
    (replaceVariablesInComments
        (extractConstants [] [Node.genDecl Tok.const
          [⟨false, ["X"], [Expr.basicLit LitKind.strLit "`line1\nline2`"]⟩]])
        "// {{X}}"
      = some "// line1\n// line2") ∧
    ∀ cs : List Char,
      splitNL (fixLines cs) = mapTail (fun g => '/' :: '/' :: ' ' :: g) (splitNL cs) :=
  ⟨by decide, splitNL_fixLines⟩

/-- Claim C3, counterexample: a hexadecimal integer literal is an integer
literal, yet strconv.Atoi rejects it, so extraction produces no binding
at all for the name. -/
theorem hex_int_literal_no_binding :
    extractConstants [] [Node.genDecl Tok.const
      [⟨false, ["Flag"], [Expr.basicLit LitKind.intLit "0x10"]⟩]] = [] := by decide

/-- Claim C3, amended: a declaration whose initializer is an integer
literal produces a binding to the Atoi reading of the token exactly when
that base-10 parse succeeds (plain decimal numerals within the signed
64-bit range); hex, binary, octal-prefixed and underscored literals
produce no binding, and 0-prefixed octal literals bind to their decimal
reading. -/
theorem int_literal_binding (name : String) (tok : String) (v : Int)
    (hv : atoi? tok = some v) :
    extractConstants [] [Node.genDecl Tok.const
        [⟨false, [name], [Expr.basicLit LitKind.intLit tok]⟩]]
      = [(name, Value.int v)] := by
  have hev : extractValue (Expr.basicLit LitKind.intLit tok) = some (Value.int v) := by
    simp [extractValue, hv]
  have h1 : bindPairs [] ([name].zip [Expr.basicLit LitKind.intLit tok])
      = [(name, Value.int v)] := by
    simp [List.zip, bindPairs, hev, insertBT]
  have h2 : bindPairs [(name, Value.int v)] ([name].zip [Expr.basicLit LitKind.intLit tok])
      = [(name, Value.int v)] := by
    apply bindPairs_stable
    intro p hp v2 hv2
    simp [List.zip] at hp
    subst hp
    rw [hev] at hv2
    injection hv2 with hv2
    simp [findBT?, ← hv2]
  rw [extractConstants_one_const, if_neg (by simp), h1, h2]

theorem int_literal_binding_witness :
    extractConstants [] [Node.genDecl Tok.const
        [⟨false, ["MaxSize"], [Expr.basicLit LitKind.intLit "42"]⟩]]
      = [("MaxSize", Value.int 42)] :=
  int_literal_binding "MaxSize" "42" 42 (by decide)

/-- Claim C4: declarations whose initializers are all non-literal
(calls, arithmetic, identifier references, composite literals) leave the
table exactly as it was, for const and var groups alike, with no error
path. -/
theorem nonliteral_no_binding (bt : BindingTable) (tok : Tok) (ht : Bool)
    (names : List String) (values : List Expr)
    (h : ∀ e ∈ values, isNonLiteral e = true) :
    extractConstants bt [Node.genDecl tok [⟨ht, names, values⟩]] = bt := by
  have hzip : ∀ p ∈ names.zip values, extractValue p.2 = none := by
    intro p hp
    exact isNonLiteral_extractValue (h p.2 (mem_zip_snd hp))
  have hnoop : ∀ b : BindingTable, bindPairs b (names.zip values) = b := by
    intro b
    apply bindPairs_stable
    intro p hp v hv
    rw [hzip p hp] at hv
    cases hv
  cases tok <;> cases ht <;>
    simp [extractConstants, walkList, walkNode, processSpecVar, hnoop]

theorem nonliteral_no_binding_witness :
    extractConstants [("K", Value.int 1)] [Node.genDecl Tok.const
        [⟨false, ["A", "B"], [Expr.otherExpr, Expr.ident "other"]⟩]]
      = [("K", Value.int 1)] :=
  nonliteral_no_binding [("K", Value.int 1)] Tok.const false ["A", "B"]
    [Expr.otherExpr, Expr.ident "other"] (by decide)

/-- Claim C5: when no comment-bearing line of the file has a placeholder
naming a bound identifier, the rewriter leaves the content unchanged and
performs no write. -/
theorem no_resolvable_placeholder_no_write (bt : BindingTable) (content : String)
    (h : ∀ line ∈ contentLines content,
      hasMarker line.data = true → hasResolvable bt line = false) :
    replaceVariablesInComments bt content = none :=
  noResolvable_none bt content h

theorem no_resolvable_placeholder_no_write_witness :
    replaceVariablesInComments [("A", Value.int 1)] "// hello {{B}}\npackage x" = none :=
  no_resolvable_placeholder_no_write [("A", Value.int 1)] "// hello {{B}}\npackage x"
    (by decide)

/-- Claim C6, counterexample: a bound value that itself contains
placeholder text resolves further on a second run: with X bound to the
text of a placeholder for Y, the first run turns the comment into a
Y-placeholder and the second run substitutes it, so the rewrite is not
idempotent. -/
theorem rewrite_not_idempotent :
    replaceVariablesInComments [("X", Value.str "{{Y}}"), ("Y", Value.str "42")] "// {{X}}"
      = some "// {{Y}}" ∧
    replaceVariablesInComments [("X", Value.str "{{Y}}"), ("Y", Value.str "42")] "// {{Y}}"
      = some "// 42" :=
  ⟨by decide, by decide⟩

/-- Claim C6, amended: a second run over the first output makes no
further change provided no comment-bearing line of that output still
carries a placeholder naming a bound identifier; the proviso is needed
because a binding value containing (or splicing into) placeholder-shaped
text re-resolves, as the counterexample shows. -/
theorem second_run_no_change_when_output_resolved (bt : BindingTable) (c out : String)
    (_h1 : replaceVariablesInComments bt c = some out)
    (h2 : ∀ line ∈ contentLines out,
      hasMarker line.data = true → hasResolvable bt line = false) :
    replaceVariablesInComments bt out = none :=
  noResolvable_none bt out h2

theorem second_run_no_change_when_output_resolved_witness :
    replaceVariablesInComments [("X", Value.str "done")] "// done" = none :=
  second_run_no_change_when_output_resolved [("X", Value.str "done")] "// {{X}}" "// done"
    (by decide) (by decide)

/-- Claim C8: the rewrite phase of directory processing uses the table
completed over all files, so a constant declared in file A resolves a
placeholder inside a comment of file B; the first conjunct states the
phase ordering for every directory, the second exhibits the cross-file
resolution on a two-file directory. -/
theorem directory_extraction_before_rewrite :
    (∀ files : List SrcFile,
      ProcessDirectory files
        = files.map (fun f => replaceVariablesInComments (extractDirTable files) f.content)) ∧
    ProcessDirectory
        [⟨[Node.genDecl Tok.const [⟨false, ["Shared"], [Expr.basicLit LitKind.intLit "7"]⟩]],
          "package a"⟩,
         ⟨[], "// {{Shared}}"⟩]
      = [none, some "// 7"] :=
  ⟨fun _ => rfl, by decide⟩

/-- Claim C9, counterexample: ast.Inspect descends into function bodies,
so a constant group nested inside a function declaration still produces a
binding, contradicting the top-level-only claim. -/
theorem nested_const_binds :
    extractConstants [] [Node.funcDecl [Node.genDecl Tok.const
      [⟨false, ["Nested"], [Expr.basicLit LitKind.intLit "5"]⟩]]]
      = [("Nested", Value.int 5)] := by decide

/-- Claim C9, amended: extraction is depth-independent: wrapping any
declarations inside a function body yields exactly the bindings of the
declarations themselves, so nested constant and untyped variable
declarations bind like top-level ones. -/
theorem extraction_descends_into_functions :
    (∀ (bt : BindingTable) (body : List Node),
      extractConstants bt [Node.funcDecl body] = extractConstants bt body) ∧
    findBT? (extractConstants [] [Node.funcDecl [Node.genDecl Tok.const
        [⟨false, ["Inner"], [Expr.basicLit LitKind.intLit "7"]⟩]]]) "Inner"
      = some (Value.int 7) :=
  ⟨fun _ _ => rfl, by decide⟩

/-- Claim C10: a buffer line with no comment marker anywhere is left
byte-for-byte unchanged by the rewrite loop, whatever the table and
whatever placeholder-shaped text the line carries. -/
theorem no_marker_line_unchanged (bt : BindingTable) (content : String) (i : Nat)
    (line : String)
    (hline : (contentLines content).get? i = some line)
    (hm : hasMarker line.data = false) :
    (rewriteLines bt content).get? i = some line := by
  unfold rewriteLines
  rw [List.get?_map, hline]
  simp [rewriteLine, hm]

theorem no_marker_line_unchanged_witness :
    (rewriteLines [("A", Value.int 5)] "x = 1 {{A}}").get? 0 = some "x = 1 {{A}}" :=
  no_marker_line_unchanged [("A", Value.int 5)] "x = 1 {{A}}" 0 "x = 1 {{A}}"
    (by decide) (by decide)

lemma dataMk (l : List Char) : (⟨l⟩ : String).data = l := rfl

lemma processCommentLine_eq (bt : BindingTable) (line : String) :
    processCommentLine bt line =
      ((⟨(replaceAll pat3 (lookupRep bt)
            ((⟨(replaceAll pat2 (lookupRep bt)
              ((⟨(replaceAll pat1 (lookupRep bt) line.data).1⟩ : String)).data).1⟩ : String)).data).1⟩ : String),
        (([] ++ (replaceAll pat1 (lookupRep bt) line.data).2) ++
            (replaceAll pat2 (lookupRep bt)
              ((⟨(replaceAll pat1 (lookupRep bt) line.data).1⟩ : String)).data).2) ++
          (replaceAll pat3 (lookupRep bt)
            ((⟨(replaceAll pat2 (lookupRep bt)
              ((⟨(replaceAll pat1 (lookupRep bt) line.data).1⟩ : String)).data).1⟩ : String)).data).2) := rfl

/-- Claim C7: a placeholder whose captured name is absent from the table
is left textually unchanged in the output line and produces exactly one
warning, while processing continues: a later placeholder on the same line
with a bound name still resolves. -/
theorem unresolved_placeholder_preserved (bt : BindingTable) (w1 w2 v : String)
    (hw1 : identShape w1 = true) (hw2 : identShape w2 = true)
    (hu : findBT? bt w1 = none)
    (hb : findBT? bt w2 = some (Value.str v))
    (hv : ∀ c ∈ v.data, c ≠ '$' ∧ c ≠ '@') :
    processCommentLine bt ("// " ++ "\x7b\x7b" ++ w1 ++ "\x7d\x7d" ++ " and " ++ "\x7b\x7b" ++ w2 ++ "\x7d\x7d")
      = ("// " ++ "\x7b\x7b" ++ w1 ++ "\x7d\x7d" ++ " and " ++ v, [w1]) := by
  cases hd1 : w1.data with
  | nil =>
    unfold identShape at hw1
    rw [hd1] at hw1
    simp at hw1
  | cons c1 t1 =>
  cases hd2 : w2.data with
  | nil =>
    unfold identShape at hw2
    rw [hd2] at hw2
    simp at hw2
  | cons c2 t2 =>
  unfold identShape at hw1 hw2
  rw [hd1] at hw1
  rw [hd2] at hw2
  simp at hw1 hw2
  obtain ⟨hc1, ht1⟩ := hw1
  obtain ⟨hc2, ht2⟩ := hw2
  have hw1e : (⟨c1 :: t1⟩ : String) = w1 := by
    rw [← hd1]
  have hw2e : (⟨c2 :: t2⟩ : String) = w2 := by
    rw [← hd2]
  have hf1 : lookupRep bt (⟨c1 :: t1⟩ : String) = none := by
    rw [hw1e]
    simp [lookupRep, hu]
  have hf2 : lookupRep bt (⟨c2 :: t2⟩ : String) = some v := by
    rw [hw2e]
    simp [lookupRep, hb, fmtValue]
  have hA : replaceAll pat1 (lookupRep bt)
      (pat1.pre ++ (c2 :: t2) ++ pat1.suf ++ ([] : List Char))
      = (v.data ++ [], []) := by
    rw [replaceAll_hit_some c2 t2 [] hc2 ht2 '\x7d' ['\x7d'] rfl (by decide)
      '\x7b' ['\x7b'] rfl hf2, replaceAll_nil]
  have hB : replaceAll pat1 (lookupRep bt)
      ([' ', 'a', 'n', 'd', ' '] ++ (pat1.pre ++ (c2 :: t2) ++ pat1.suf ++ ([] : List Char)))
      = ([' ', 'a', 'n', 'd', ' '] ++ (v.data ++ []), []) := by
    rw [replaceAll_skip (lookupRep bt) (show pat1.pre.head? = some '\x7b' from rfl)
      [' ', 'a', 'n', 'd', ' '] _ (by decide), hA]
  have hC : replaceAll pat1 (lookupRep bt)
      (pat1.pre ++ (c1 :: t1) ++ pat1.suf ++
        ([' ', 'a', 'n', 'd', ' '] ++ (pat1.pre ++ (c2 :: t2) ++ pat1.suf ++ ([] : List Char))))
      = (pat1.pre ++ (c1 :: t1) ++ pat1.suf ++ ([' ', 'a', 'n', 'd', ' '] ++ (v.data ++ [])),
        [(⟨c1 :: t1⟩ : String)]) := by
    rw [replaceAll_hit_none c1 t1 _ hc1 ht1 '\x7d' ['\x7d'] rfl (by decide)
      '\x7b' ['\x7b'] rfl hf1, hB]
  have hD : replaceAll pat1 (lookupRep bt)
      (['/', '/', ' '] ++
        (pat1.pre ++ (c1 :: t1) ++ pat1.suf ++
          ([' ', 'a', 'n', 'd', ' '] ++ (pat1.pre ++ (c2 :: t2) ++ pat1.suf ++ ([] : List Char)))))
      = (['/', '/', ' '] ++
          (pat1.pre ++ (c1 :: t1) ++ pat1.suf ++ ([' ', 'a', 'n', 'd', ' '] ++ (v.data ++ []))),
        [(⟨c1 :: t1⟩ : String)]) := by
    rw [replaceAll_skip (lookupRep bt) (show pat1.pre.head? = some '\x7b' from rfl)
      ['/', '/', ' '] _ (by decide), hC]
  have identChar1 : ∀ x ∈ c1 :: t1, isIdentChar x = true := by
    intro x hx
    rcases List.mem_cons.mp hx with h | h
    · subst h
      simp [isIdentChar, hc1]
    · exact ht1 x h
  have hmem2 : ∀ c ∈ ['/', '/', ' '] ++
      (pat1.pre ++ (c1 :: t1) ++ pat1.suf ++
        ([' ', 'a', 'n', 'd', ' '] ++ (v.data ++ []))), c ≠ '$' := by
    refine List.forall_mem_append.mpr ⟨by decide, ?_⟩
    refine List.forall_mem_append.mpr ⟨?_, ?_⟩
    · refine List.forall_mem_append.mpr ⟨List.forall_mem_append.mpr ⟨by decide, ?_⟩, by decide⟩
      exact fun x hx => identChar_ne_dollar (identChar1 x hx)
    · refine List.forall_mem_append.mpr ⟨by decide, List.forall_mem_append.mpr ⟨?_, by decide⟩⟩
      exact fun x hx => (hv x hx).1
  have hmem3 : ∀ c ∈ ['/', '/', ' '] ++
      (pat1.pre ++ (c1 :: t1) ++ pat1.suf ++
        ([' ', 'a', 'n', 'd', ' '] ++ (v.data ++ []))), c ≠ '@' := by
    refine List.forall_mem_append.mpr ⟨by decide, ?_⟩
    refine List.forall_mem_append.mpr ⟨?_, ?_⟩
    · refine List.forall_mem_append.mpr ⟨List.forall_mem_append.mpr ⟨by decide, ?_⟩, by decide⟩
      exact fun x hx => identChar_ne_at (identChar1 x hx)
    · refine List.forall_mem_append.mpr ⟨by decide, List.forall_mem_append.mpr ⟨?_, by decide⟩⟩
      exact fun x hx => (hv x hx).2
  have hskip2 := replaceAll_all_skip (lookupRep bt)
    (show pat2.pre.head? = some '$' from rfl) _ hmem2
  have hskip3 := replaceAll_all_skip (lookupRep bt)
    (show pat3.pre.head? = some '@' from rfl) _ hmem3
  have eLine : ("// " ++ "\x7b\x7b" ++ w1 ++ "\x7d\x7d" ++ " and " ++ "\x7b\x7b" ++ w2 ++ "\x7d\x7d").data
      = ['/', '/', ' '] ++
        (pat1.pre ++ (c1 :: t1) ++ pat1.suf ++
          ([' ', 'a', 'n', 'd', ' '] ++ (pat1.pre ++ (c2 :: t2) ++ pat1.suf ++ ([] : List Char)))) := by
    simp [pat1, hd1, hd2]
  have hout : ("// " ++ "\x7b\x7b" ++ w1 ++ "\x7d\x7d" ++ " and " ++ v).data
      = ['/', '/', ' '] ++
        (pat1.pre ++ (c1 :: t1) ++ pat1.suf ++ ([' ', 'a', 'n', 'd', ' '] ++ (v.data ++ []))) := by
    simp [pat1, hd1]
  rw [processCommentLine_eq, eLine]
  simp only [hD, dataMk, hskip2, hskip3]
  rw [Prod.ext_iff]
  constructor
  · show (⟨['/', '/', ' '] ++
        (pat1.pre ++ (c1 :: t1) ++ pat1.suf ++ ([' ', 'a', 'n', 'd', ' '] ++ (v.data ++ [])))⟩ : String)
      = "// " ++ "\x7b\x7b" ++ w1 ++ "\x7d\x7d" ++ " and " ++ v
    rw [← hout]
  · show ([] ++ [(⟨c1 :: t1⟩ : String)]) ++ [] ++ [] = [w1]
    simp [hw1e]

theorem unresolved_placeholder_preserved_witness :
    processCommentLine [("Status", Value.str "OK")]
        ("// " ++ "\x7b\x7b" ++ "Unknown" ++ "\x7d\x7d" ++ " and " ++ "\x7b\x7b" ++ "Status" ++ "\x7d\x7d")
      = ("// " ++ "\x7b\x7b" ++ "Unknown" ++ "\x7d\x7d" ++ " and " ++ "OK", ["Unknown"]) :=
  unresolved_placeholder_preserved [("Status", Value.str "OK")] "Unknown" "Status" "OK"
    (by decide) (by decide) (by decide) (by decide) (by decide)

end GofmtComment
